import Mathlib

/-!
Verification of the polytope algebra and path-decomposition search of the
`monodromy` repository (`monodromy/polytopes.py`, `monodromy/xx_decompose/paths.py`)
against its specification.

The Python code is shallowly embedded:
* exact rationals become `Rat`;
* the external geometry backend (vertex enumeration, volume, reduction of a
  single convex region) becomes an explicit `Backend` record of functions,
  where a `none` result models the backend raising `NoFeasibleSolutions`;
* the per-instance memo cells installed by `memoized_property` /
  `clear_memoization` (from `monodromy/utilities.py`, which is not part of the
  sources; modelled from the spec, section 9: an explicit memo cell per
  instance, read on access, reset by `clear_memoization`) become explicit
  `Option`-valued fields of `Polytope`;
* Python exceptions that escape a function are modelled by `Option`/`Except`
  results.
-/

/-- Exact linear constraint row and coordinate vectors are lists of rationals. -/
abbrev Row : Type := List Rat

/-- Embeds `PolytopeVolume` (polytopes.py): a (dimension, magnitude) pair. -/
structure PolytopeVolume where
  dimension : Nat
  volume : Rat
deriving DecidableEq

/-- Embeds `PolytopeVolume.__add__`: the operand of strictly larger dimension
wins; equal dimensions add magnitudes. -/
def PolytopeVolume.add (a b : PolytopeVolume) : PolytopeVolume :=
  if a.dimension > b.dimension then a
  else if a.dimension < b.dimension then b
  else { dimension := a.dimension, volume := a.volume + b.volume }

/-- Embeds `PolytopeVolume.__sub__`: `none` models the `ValueError` raised when
subtracting a strictly higher-dimensional volume from a lower-dimensional one. -/
def PolytopeVolume.sub (a b : PolytopeVolume) : Option PolytopeVolume :=
  if a.dimension > b.dimension then some a
  else if a.dimension = b.dimension then
    some { dimension := a.dimension, volume := a.volume - b.volume }
  else none

/-- Embeds the `@dataclass(order=True)` comparison on `PolytopeVolume`:
lexicographic on (dimension, volume). -/
def PolytopeVolume.le (a b : PolytopeVolume) : Bool :=
  a.dimension < b.dimension ||
    (a.dimension == b.dimension && decide (a.volume ≤ b.volume))

/-- Embeds `ConvexPolytope` (polytopes.py): one conjunction of constraints. -/
structure ConvexPolytope where
  inequalities : List Row
  equalities : List Row
deriving DecidableEq

/-- The external geometry backend (`monodromy.backend`), out of scope for the
repository core: a record of the operations the core consumes.  A `none`
result models `NoFeasibleSolutions`. -/
structure Backend where
  volume : ConvexPolytope → Option PolytopeVolume
  vertices : ConvexPolytope → Option (List Row)
  reduce : ConvexPolytope → Option ConvexPolytope

/-- Embeds `ConvexPolytope.volume`: an infeasible region reports zero measure. -/
def ConvexPolytope.volume (b : Backend) (cp : ConvexPolytope) : PolytopeVolume :=
  (b.volume cp).getD { dimension := 0, volume := 0 }

/-- Embeds `ConvexPolytope.vertices`: an infeasible region has no vertices. -/
def ConvexPolytope.vertices (b : Backend) (cp : ConvexPolytope) : List Row :=
  (b.vertices cp).getD []

/-- Embeds `ConvexPolytope.intersect`: concatenation of the constraint lists. -/
def ConvexPolytope.intersect (cp other : ConvexPolytope) : ConvexPolytope :=
  { inequalities := cp.inequalities ++ other.inequalities,
    equalities := cp.equalities ++ other.equalities }

/-- Claim C8: `PolytopeVolume` subtraction returns the left operand unchanged
when its dimension is strictly larger, subtracts the magnitudes at equal
dimension, and fails (raises `ValueError`, modelled by `none`) when the left
dimension is strictly smaller: it never silently truncates. -/
theorem thm_C8 (a b : PolytopeVolume) :
    (a.dimension > b.dimension → PolytopeVolume.sub a b = some a) ∧
    (a.dimension = b.dimension →
      PolytopeVolume.sub a b =
        some { dimension := a.dimension, volume := a.volume - b.volume }) ∧
    (a.dimension < b.dimension → PolytopeVolume.sub a b = none) := by
  refine ⟨fun h => ?_, fun h => ?_, fun h => ?_⟩
  · simp [PolytopeVolume.sub, h]
  · simp [PolytopeVolume.sub, h]
  · have h1 : ¬ a.dimension > b.dimension := by omega
    have h2 : ¬ a.dimension = b.dimension := by omega
    simp [PolytopeVolume.sub, h1, h2]

/-- Witness for C8, at concrete volumes of dimensions 2, 2 and 3. -/
theorem tw_C8 :
    ((2 : Nat) > 1 ∧
      PolytopeVolume.sub ⟨2, 5⟩ ⟨1, 7⟩ = some ⟨2, 5⟩) ∧
    ((2 : Nat) = 2 ∧
      PolytopeVolume.sub ⟨2, 5⟩ ⟨2, 7⟩ = some ⟨2, -2⟩) ∧
    ((2 : Nat) < 3 ∧
      PolytopeVolume.sub ⟨2, 5⟩ ⟨3, 7⟩ = none) :=
  ⟨⟨by decide, (thm_C8 ⟨2, 5⟩ ⟨1, 7⟩).1 (by decide)⟩,
   ⟨rfl, by have h := (thm_C8 ⟨2, 5⟩ ⟨2, 7⟩).2.1 rfl; rw [h]; norm_num⟩,
   ⟨by decide, (thm_C8 ⟨2, 5⟩ ⟨3, 7⟩).2.2 (by decide)⟩⟩

/-- Embeds `Polytope` (polytopes.py): a union of convex polytopes, together
with its two memo cells.  `memoized_property` and `clear_memoization` are not
part of the sources; the cells are modelled from the spec (section 9): a lazy
per-instance slot, returned on access when populated, reset explicitly by any
clone-and-replace operation that clears memoization. -/
structure Polytope where
  convex_subpolytopes : List ConvexPolytope
  memoVolume : Option PolytopeVolume := none
  memoVertices : Option (List (List Row)) := none
deriving DecidableEq

/-- Modelled from the spec: `bit_iteration(length, weight)` from
`monodromy/utilities.py` (not in the sources) enumerates all bitmasks over
`length` bits with exactly `weight` bits set, in increasing numeric order. -/
def bit_iteration (length weight : Nat) : List Nat :=
  (List.range (2 ^ length)).filter
    (fun m => (List.range length).countP (fun i => m.testBit i) == weight)

/-- The intersection of the components of `comps` selected by `bits`, built as
in `Polytope.volume`: starting from `ConvexPolytope(inequalities=[])` and
intersecting each selected component in index order. -/
def subsetIntersection (comps : List ConvexPolytope) (bits : Nat) : ConvexPolytope :=
  comps.enum.foldl
    (fun acc ic =>
      if bits &&& (1 <<< ic.1) != 0 then acc.intersect ic.2 else acc)
    { inequalities := [], equalities := [] }

/-- Running state of the inclusion-exclusion loop of `Polytope.volume`:
the accumulated signed volume, the list of skip masks, and the table of
previously computed subset volumes (`none` = not computed). -/
structure IEState where
  vol : PolytopeVolume
  skips : List Nat
  prev : Nat → Option PolytopeVolume

/-- The signed accumulation of `Polytope.volume`: subtract at odd `d`, add at
even `d`.  `none` models the `ValueError` of an illegal subtraction. -/
def signedAccum (d : Nat) (vol pv : PolytopeVolume) : Option PolytopeVolume :=
  if d % 2 = 1 then vol.sub pv else some (vol.add pv)

/-- The parent scan at the end of a first-pass step of `Polytope.volume`: find
the first set bit whose removal gives an unskipped parent of equal recorded
volume; if found, mark that parent skipped and fold the child volume into the
running total at the sign of `d` (the Python `break` after the first hit). -/
def ieFirstParent (d : Nat) (st : IEState) (bits : Nat) (pv : PolytopeVolume)
    (skips2 : List Nat) (prev2 : Nat → Option PolytopeVolume) (n : Nat) :
    Option IEState :=
  match (List.range n).find? (fun j =>
      bits &&& (1 <<< j) != 0 &&
      !(skips2.contains (bits ^^^ (1 <<< j))) &&
      prev2 (bits ^^^ (1 <<< j)) == some pv) with
  | none => some { vol := st.vol, skips := skips2, prev := prev2 }
  | some j => do
      let v2 ← signedAccum d st.vol pv
      some { vol := v2, skips := skips2 ++ [bits ^^^ (1 <<< j)], prev := prev2 }

/-- One step of the first (pruning) pass of `Polytope.volume` at subset size
`1 + d`, continued in `ieFirstParent` (the Python locals `pv`, `skip_masks` and
the updated `previous_volumes` become the arguments of `ieFirstParent`). -/
def ieFirstStep (b : Backend) (comps : List ConvexPolytope) (top d : Nat)
    (st : IEState) (bits : Nat) : Option IEState :=
  if st.skips.any (fun mask => mask &&& bits == mask) then some st
  else
    ieFirstParent d st bits (ConvexPolytope.volume b (subsetIntersection comps bits))
      (if (ConvexPolytope.volume b (subsetIntersection comps bits)).dimension < top
        then st.skips ++ [bits] else st.skips)
      (fun i => if i = bits
        then some (ConvexPolytope.volume b (subsetIntersection comps bits))
        else st.prev i)
      comps.length

/-- One step of the second (summation) pass of `Polytope.volume` at subset size
`1 + d`: sum the signed volumes of computed, non-skipped subsets. -/
def ieSecondStep (d : Nat) (skips : List Nat) (prev : Nat → Option PolytopeVolume)
    (vol : PolytopeVolume) (bits : Nat) : Option PolytopeVolume :=
  match prev bits with
  | none => some vol
  | some pv =>
      if skips.any (fun mask => bits &&& mask == mask) then some vol
      else signedAccum d vol pv

/-- Embeds the body of `Polytope.volume` (polytopes.py lines 135-189):
inclusion-exclusion over the component subsets with dimension-collapse and
sibling-collapse pruning.  `none` models a propagated `ValueError`. -/
def computeVolume (b : Backend) (comps : List ConvexPolytope) :
    Option PolytopeVolume := do
  let top := comps.foldl (fun t c => max t (ConvexPolytope.volume b c).dimension) 0
  let n := comps.length
  let final ← (List.range n).foldlM
    (fun (st : IEState) d => do
      let st1 ← (bit_iteration n (1 + d)).foldlM (ieFirstStep b comps top d) st
      let v2 ← (bit_iteration n (1 + d)).foldlM (ieSecondStep d st1.skips st1.prev) st1.vol
      pure { st1 with vol := v2 })
    { vol := { dimension := 0, volume := 0 }, skips := [], prev := fun _ => none }
  pure final.vol

/-- Embeds the `Polytope.volume` accessor: return the memo cell when populated,
else run the inclusion-exclusion computation on the component list. -/
def Polytope.volume (b : Backend) (p : Polytope) : Option PolytopeVolume :=
  match p.memoVolume with
  | some v => some v
  | none => computeVolume b p.convex_subpolytopes

/-- Embeds the `Polytope.vertices` accessor: the memo cell when populated, else
the list of per-component vertex sets. -/
def Polytope.vertices (b : Backend) (p : Polytope) : List (List Row) :=
  match p.memoVertices with
  | some v => v
  | none => p.convex_subpolytopes.map (ConvexPolytope.vertices b)

/-- Embeds `Polytope.union`: clone, replace the component list by the
concatenation, and clear the clone's memo cells (`clear_memoization`). -/
def Polytope.union (p other : Polytope) : Polytope :=
  { convex_subpolytopes := p.convex_subpolytopes ++ other.convex_subpolytopes,
    memoVolume := none, memoVertices := none }

/-- Embeds `Polytope.intersect`: pairwise intersection of every left component
with every right component, memo cells cleared (`clear_memoization`). -/
def Polytope.intersect (p other : Polytope) : Polytope :=
  { convex_subpolytopes :=
      p.convex_subpolytopes.flatMap
        (fun l => other.convex_subpolytopes.map (fun r => l.intersect r)),
    memoVolume := none, memoVertices := none }

/-- Embeds `Polytope.contains`: phase 1 checks every vertex of every component
of `other` against the component vertex sets of `other.intersect(self)`,
returning `False` on the first missing vertex; phase 2 compares volumes.
`none` models a propagated exception from a volume computation. -/
def Polytope.contains (b : Backend) (p other : Polytope) : Option Bool :=
  let intersection := other.intersect p
  let little_vertices := other.vertices b
  let cap_vertices := intersection.vertices b
  if little_vertices.any (fun lsv =>
      lsv.any (fun v => !(cap_vertices.any (fun csv => csv.contains v)))) then
    some false
  else do
    let little_volume ← other.volume b
    let cap_volume ← intersection.volume b
    pure (cap_volume == little_volume)

/-- Key comparison used to sort candidates: `x` may precede `y` exactly when
`y`'s volume is at most `x`'s (descending order; ties allowed either way). -/
def keyGeB (x y : PolytopeVolume × Polytope) : Bool :=
  PolytopeVolume.le y.1 x.1

/-- Stable descending insertion of a keyed candidate: the new element is placed
before the first element whose key it is greater than or equal to, so an
element earlier in the input precedes later elements with an equal key. -/
def insertDesc (x : PolytopeVolume × Polytope) :
    List (PolytopeVolume × Polytope) → List (PolytopeVolume × Polytope)
  | [] => [x]
  | y :: ys => if keyGeB x y then x :: y :: ys else y :: insertDesc x ys

/-- Embeds `sorted(trimmable_polytopes, key=lambda x: x.volume, reverse=True)`:
a stable sort by volume, descending, ties kept in original order.  (CPython's
`sorted` is stable; any stable sort computes the same list.) -/
def sortDescKeyed (l : List (PolytopeVolume × Polytope)) :
    List (PolytopeVolume × Polytope) :=
  l.foldr insertDesc []

/-- The volume keys of the candidate list, computed once per candidate as the
`key=` of `sorted` does; `none` models a propagated exception. -/
def keyedCandidates (b : Backend) (S : List Polytope) :
    Option (List (PolytopeVolume × Polytope)) :=
  S.mapM (fun p => (Polytope.volume b p).map (fun v => (v, p)))

/-- Embeds the construction of `fixed_polytope` in `trim_polytope_set`: the
union of the fixed context polytopes, starting from the empty `Polytope`. -/
def fixedUnion (fixed : Option (List Polytope)) : Polytope :=
  match fixed with
  | none => { convex_subpolytopes := [] }
  | some fps => fps.foldl Polytope.union { convex_subpolytopes := [] }

/-- Embeds the deletion loop of `trim_polytope_set`: the first argument is the
not-yet-tested part of the sorted list in reverse order (the loop scans from
the last index down), the second the surviving already-tested suffix.  Each
step unions the fixed polytope with every other remaining candidate in list
order and removes the candidate when that union contains it. -/
def trimScan (b : Backend) (fixedP : Polytope) :
    List Polytope → List Polytope → Option (List Polytope)
  | [], suffix => some suffix
  | x :: revFront, suffix => do
      let others := (revFront.reverse ++ suffix).foldl Polytope.union fixedP
      let c ← Polytope.contains b others x
      if c then trimScan b fixedP revFront suffix
      else trimScan b fixedP revFront (x :: suffix)

/-- Embeds `trim_polytope_set` (polytopes.py lines 285-328). -/
def trim_polytope_set (b : Backend) (trimmable : List Polytope)
    (fixed : Option (List Polytope)) : Option (List Polytope) := do
  let fixedP := fixedUnion fixed
  let keyed ← keyedCandidates b trimmable
  let sorted := (sortDescKeyed keyed).map (fun e => e.2)
  trimScan b fixedP sorted.reverse []

/-- Embeds `Polytope.reduce` (polytopes.py lines 196-218): reduce each
component (dropping infeasible ones), trim the resulting singleton polytopes,
and install the survivors on a clone of `self`.  Note the clone's memo cells
are NOT cleared by the code.  `none` models a propagated exception. -/
def Polytope.reduce (b : Backend) (p : Polytope) : Option Polytope := do
  let independent := p.convex_subpolytopes.foldl
    (fun acc cs =>
      match b.reduce cs with
      | some r => acc ++ [({ convex_subpolytopes := [r] } : Polytope)]
      | none => acc) []
  let trimmed ← trim_polytope_set b independent none
  let newComps := trimmed.map
    (fun ip => ip.convex_subpolytopes.headD { inequalities := [], equalities := [] })
  pure { p with convex_subpolytopes := newComps }

/-- A memo-coherent polytope: each populated memo cell holds exactly the value
that would be recomputed from the component list.  Every polytope reachable in
Python by construction plus accessor calls is coherent (cells are populated on
first access with the computed value). -/
def Polytope.Coherent (b : Backend) (p : Polytope) : Prop :=
  (p.memoVolume = none ∨ p.memoVolume = computeVolume b p.convex_subpolytopes) ∧
  (p.memoVertices = none ∨
    p.memoVertices = some (p.convex_subpolytopes.map (ConvexPolytope.vertices b)))

/-- The phase-1 vertex condition of `Polytope.contains`, stated at the level of
components: every vertex of every convex component of `q` appears in some
component's vertex set of `q.intersect(p)`. -/
def containsVertexPhase (b : Backend) (p q : Polytope) : Prop :=
  ∀ cp ∈ q.convex_subpolytopes, ∀ v ∈ ConvexPolytope.vertices b cp,
    ∃ capc ∈ (q.intersect p).convex_subpolytopes, v ∈ ConvexPolytope.vertices b capc

/-- Claim C10: every `Polytope` contains the freshly constructed empty
`Polytope` (no components, no populated memo cells): the vertex phase is
vacuous and both volumes are the zero measure of dimension 0. -/
theorem thm_C10 (b : Backend) (p q : Polytope) (hc : q.convex_subpolytopes = [])
    (hv : q.memoVolume = none) (hx : q.memoVertices = none) :
    Polytope.contains b p q = some true := by
  obtain ⟨comps, mv, mx⟩ := q
  simp only at hc hv hx
  subst hc; subst hv; subst hx
  rfl

/-- The phase-1 test of `Polytope.contains`, as the code computes it. -/
def containsVertexBool (b : Backend) (p q : Polytope) : Bool :=
  (q.vertices b).any (fun lsv =>
    lsv.any (fun v =>
      !(((q.intersect p).vertices b).any (fun csv => csv.contains v))))

theorem contains_eq_phase (b : Backend) (p q : Polytope) :
    Polytope.contains b p q =
      if containsVertexBool b p q then some false
      else (do
        let lv ← Polytope.volume b q
        let cv ← Polytope.volume b (q.intersect p)
        pure (cv == lv)) := rfl

theorem containsVertexBool_iff (b : Backend) (p q : Polytope)
    (hq : q.memoVertices = none ∨
      q.memoVertices = some (q.convex_subpolytopes.map (ConvexPolytope.vertices b))) :
    containsVertexBool b p q = false ↔ containsVertexPhase b p q := by
  have hv : q.vertices b = q.convex_subpolytopes.map (ConvexPolytope.vertices b) := by
    rcases hq with h | h <;> simp [Polytope.vertices, h]
  have hcap : (q.intersect p).vertices b =
      (q.intersect p).convex_subpolytopes.map (ConvexPolytope.vertices b) := rfl
  unfold containsVertexBool containsVertexPhase
  rw [hv, hcap]
  simp [List.any_eq_true, List.mem_map]

/-- Claim C6: for a memo-coherent `q`, `p.contains(q)` returns true iff every
vertex of every convex component of `q` appears in some component's vertex set
of `I = q.intersect(p)` and the volumes of `I` and `q` agree; it returns false
as soon as a vertex is missing, without consulting the volumes; and when the
vertex phase passes, the volume comparison is still performed. -/
theorem thm_C6 (b : Backend) (p q : Polytope) (hq : Polytope.Coherent b q) :
    (Polytope.contains b p q = some true ↔
      containsVertexPhase b p q ∧
      ∃ v, Polytope.volume b q = some v ∧ Polytope.volume b (q.intersect p) = some v) ∧
    (¬ containsVertexPhase b p q → Polytope.contains b p q = some false) ∧
    (containsVertexPhase b p q →
      Polytope.contains b p q = (do
        let lv ← Polytope.volume b q
        let cv ← Polytope.volume b (q.intersect p)
        pure (cv == lv))) := by
  have hiff := containsVertexBool_iff b p q hq.2
  rw [contains_eq_phase]
  cases hbool : containsVertexBool b p q with
  | false =>
    have hphase : containsVertexPhase b p q := hiff.mp hbool
    rw [if_neg (by decide)]
    refine ⟨?_, fun hn => absurd hphase hn, fun _ => rfl⟩
    cases hlv : Polytope.volume b q with
    | none => simp [hlv, hphase]
    | some lv =>
      cases hcv : Polytope.volume b (q.intersect p) with
      | none => simp [hlv, hcv, hphase]
      | some cv =>
        show some (cv == lv) = some true ↔ _
        simp only [Option.some.injEq, beq_iff_eq]
        constructor
        · intro h
          exact ⟨hphase, lv, rfl, h⟩
        · rintro ⟨-, v, hv1, hv2⟩
          exact hv2.trans hv1.symm
  | true =>
    have hphase : ¬ containsVertexPhase b p q := by
      intro h
      have := hiff.mpr h
      rw [hbool] at this
      exact absurd this (by decide)
    rw [if_pos (by decide)]
    exact ⟨by simp [hphase], fun _ => rfl, fun h => absurd h hphase⟩

/-- A concrete geometry backend used by witness instances. -/
def bW : Backend :=
  { volume := fun _ => some { dimension := 1, volume := 1 },
    vertices := fun _ => some [[0]],
    reduce := fun cp => some cp }

/-- A concrete one-component polytope used by witness instances. -/
def pW : Polytope := { convex_subpolytopes := [{ inequalities := [[2, 1]], equalities := [] }] }

/-- A second concrete one-component polytope used by witness instances. -/
def qW : Polytope := { convex_subpolytopes := [{ inequalities := [[1, 1]], equalities := [] }] }

/-- Witness for C6, instantiated at the concrete backend `bW` and polytopes
`pW`, `qW` (freshly constructed, hence coherent). -/
theorem tw_C6 :
    Polytope.Coherent bW qW ∧
    ((Polytope.contains bW pW qW = some true ↔
      containsVertexPhase bW pW qW ∧
      ∃ v, Polytope.volume bW qW = some v ∧
        Polytope.volume bW (qW.intersect pW) = some v) ∧
    (¬ containsVertexPhase bW pW qW → Polytope.contains bW pW qW = some false) ∧
    (containsVertexPhase bW pW qW →
      Polytope.contains bW pW qW = (do
        let lv ← Polytope.volume bW qW
        let cv ← Polytope.volume bW (qW.intersect pW)
        pure (cv == lv)))) :=
  ⟨⟨Or.inl rfl, Or.inl rfl⟩, thm_C6 bW pW qW ⟨Or.inl rfl, Or.inl rfl⟩⟩

/-- Witness for C10: the concrete polytope `pW` contains the freshly
constructed empty polytope. -/
theorem tw_C10 :
    (Polytope.mk [] none none).convex_subpolytopes = [] ∧
    Polytope.contains bW pW (Polytope.mk [] none none) = some true :=
  ⟨rfl, thm_C10 bW pW (Polytope.mk [] none none) rfl rfl rfl⟩

/-- Backend exhibiting the stale cache left by `Polytope.reduce`: reducing the
single component of `pC1` changes it into a component with different vertices. -/
def bC1 : Backend :=
  { volume := fun _ => some { dimension := 1, volume := 1 },
    vertices := fun cp =>
      if cp = { inequalities := [[1]], equalities := [] } then some [[5]] else some [[3]],
    reduce := fun _ => some { inequalities := [[1]], equalities := [] } }

/-- A polytope whose two memo cells have been populated by prior accessor
calls (their values agree with recomputation, as the accessors guarantee). -/
def pC1 : Polytope :=
  { convex_subpolytopes := [{ inequalities := [[0]], equalities := [] }],
    memoVolume := some { dimension := 1, volume := 1 },
    memoVertices := some [[[3]]] }

/-- Claim C1 (evaluation at the failing input): `union` and `intersect` clear
the clone's memo cells, but `reduce` does not: starting from the coherent
`pC1`, the reduced polytope keeps the stale cached vertex list `[[[3]]]` even
though recomputation from its new component list yields `[[[5]]]`, so its
`vertices` accessor reports a value not derived from its own components. -/
theorem thm_C1 :
    Polytope.Coherent bC1 pC1 ∧
    (Polytope.union pC1 pC1).memoVolume = none ∧
    (Polytope.union pC1 pC1).memoVertices = none ∧
    (Polytope.intersect pC1 pC1).memoVolume = none ∧
    (Polytope.intersect pC1 pC1).memoVertices = none ∧
    Polytope.reduce bC1 pC1 =
      some { convex_subpolytopes := [{ inequalities := [[1]], equalities := [] }],
             memoVolume := some { dimension := 1, volume := 1 },
             memoVertices := some [[[3]]] } ∧
    (∀ r, Polytope.reduce bC1 pC1 = some r →
      r.memoVertices = pC1.memoVertices ∧
      Polytope.vertices bC1 r ≠
        r.convex_subpolytopes.map (ConvexPolytope.vertices bC1)) := by
  refine ⟨⟨Or.inr (by decide), Or.inr (by decide)⟩, rfl, rfl, rfl, rfl, by decide, ?_⟩
  intro r hr
  have : r = { convex_subpolytopes := [{ inequalities := [[1]], equalities := [] }],
               memoVolume := some { dimension := 1, volume := 1 },
               memoVertices := some [[[3]]] } := by
    have h2 : Polytope.reduce bC1 pC1 =
        some { convex_subpolytopes := [{ inequalities := [[1]], equalities := [] }],
               memoVolume := some { dimension := 1, volume := 1 },
               memoVertices := some [[[3]]] } := by decide
    rw [h2] at hr
    exact (Option.some.injEq _ _).mp hr.symm
  subst this
  exact ⟨rfl, by decide⟩

theorem pvLe_refl (a : PolytopeVolume) : PolytopeVolume.le a a = true := by
  simp [PolytopeVolume.le]

theorem pvLe_total (a c : PolytopeVolume) :
    PolytopeVolume.le a c = true ∨ PolytopeVolume.le c a = true := by
  unfold PolytopeVolume.le
  rcases Nat.lt_trichotomy a.dimension c.dimension with h | h | h
  · left; simp [h]
  · rcases le_total a.volume c.volume with hv | hv
    · left; simp [h, hv]
    · right; simp [h.symm, hv]
  · right; simp [h]

theorem pvLe_trans {a c d : PolytopeVolume} (h1 : PolytopeVolume.le a c = true)
    (h2 : PolytopeVolume.le c d = true) : PolytopeVolume.le a d = true := by
  unfold PolytopeVolume.le at *
  simp only [Bool.or_eq_true, Bool.and_eq_true, beq_iff_eq, decide_eq_true_eq,
    Nat.lt_iff_add_one_le] at *
  rcases h1 with h1 | ⟨h1, h1v⟩ <;> rcases h2 with h2 | ⟨h2, h2v⟩
  · left; omega
  · left; omega
  · left; omega
  · right; exact ⟨by omega, le_trans h1v h2v⟩

theorem keyGeB_trans {u v w : PolytopeVolume × Polytope} (h1 : keyGeB u v = true)
    (h2 : keyGeB v w = true) : keyGeB u w = true :=
  pvLe_trans h2 h1

theorem mem_insertDesc {x z : PolytopeVolume × Polytope}
    {l : List (PolytopeVolume × Polytope)} :
    z ∈ insertDesc x l ↔ z = x ∨ z ∈ l := by
  induction l with
  | nil => simp [insertDesc]
  | cons y ys ih =>
    unfold insertDesc
    by_cases h : keyGeB x y = true
    · simp [h]
    · simp only [Bool.not_eq_true] at h
      simp [h, ih]
      tauto

theorem pairwise_insertDesc {x : PolytopeVolume × Polytope}
    {l : List (PolytopeVolume × Polytope)}
    (hl : List.Pairwise (fun u v => keyGeB u v = true) l) :
    List.Pairwise (fun u v => keyGeB u v = true) (insertDesc x l) := by
  induction l with
  | nil => simp [insertDesc]
  | cons y ys ih =>
    unfold insertDesc
    by_cases h : keyGeB x y = true
    · simp only [if_pos h]
      refine List.Pairwise.cons ?_ hl
      intro z hz
      rcases List.mem_cons.mp hz with rfl | hz
      · exact h
      · exact keyGeB_trans h (List.rel_of_pairwise_cons hl hz)
    · simp only [Bool.not_eq_true] at h
      simp only [h, Bool.false_eq_true, if_false]
      refine List.Pairwise.cons ?_ (ih hl.of_cons)
      intro z hz
      rcases mem_insertDesc.mp hz with rfl | hz
      · rcases pvLe_total z.1 y.1 with ht | ht
        · exact ht
        · exact absurd ht (by simpa [keyGeB] using h)
      · exact List.rel_of_pairwise_cons hl hz

theorem pairwise_sortDescKeyed (l : List (PolytopeVolume × Polytope)) :
    List.Pairwise (fun u v => keyGeB u v = true) (sortDescKeyed l) := by
  induction l with
  | nil => exact List.Pairwise.nil
  | cons x xs ih => exact pairwise_insertDesc ih

theorem sortDescKeyed_of_pairwise {l : List (PolytopeVolume × Polytope)}
    (hl : List.Pairwise (fun u v => keyGeB u v = true) l) :
    sortDescKeyed l = l := by
  induction l with
  | nil => rfl
  | cons x xs ih =>
    show insertDesc x (sortDescKeyed xs) = x :: xs
    rw [ih hl.of_cons]
    cases xs with
    | nil => rfl
    | cons y ys =>
      unfold insertDesc
      rw [if_pos (List.rel_of_pairwise_cons hl (List.mem_cons_self _ _))]

theorem filter_insertDesc (x : PolytopeVolume × Polytope) (k : PolytopeVolume)
    (l : List (PolytopeVolume × Polytope)) :
    (insertDesc x l).filter (fun e => e.1 == k) =
      (x :: l).filter (fun e => e.1 == k) := by
  induction l with
  | nil => rfl
  | cons y ys ih =>
    unfold insertDesc
    by_cases h : keyGeB x y = true
    · simp [h]
    · simp only [Bool.not_eq_true] at h
      simp only [h, Bool.false_eq_true, if_false]
      rcases hx : (x.1 == k) with _ | _ <;> rcases hy : (y.1 == k) with _ | _
      · simp [List.filter_cons, hx, hy, ih]
      · simp [List.filter_cons, hx, hy, ih]
      · simp [List.filter_cons, hx, hy, ih]
      · exfalso
        have hx1 : x.1 = k := by simpa using hx
        have hy1 : y.1 = k := by simpa using hy
        have hk : keyGeB x y = true := by
          simp [keyGeB, hx1, hy1, pvLe_refl]
        rw [hk] at h
        cases h

theorem filter_sortDescKeyed (k : PolytopeVolume)
    (l : List (PolytopeVolume × Polytope)) :
    (sortDescKeyed l).filter (fun e => e.1 == k) = l.filter (fun e => e.1 == k) := by
  induction l with
  | nil => rfl
  | cons x xs ih =>
    show (insertDesc x (sortDescKeyed xs)).filter (fun e => e.1 == k) = _
    rw [filter_insertDesc, List.filter_cons, List.filter_cons, ih]

theorem keyedCandidates_spec (b : Backend) :
    ∀ (S : List Polytope) (keyed : List (PolytopeVolume × Polytope)),
      keyedCandidates b S = some keyed →
      keyed.map (fun e => e.2) = S ∧ ∀ e ∈ keyed, Polytope.volume b e.2 = some e.1 := by
  intro S
  induction S with
  | nil =>
    intro keyed h
    simp only [keyedCandidates, List.mapM_nil, pure, Option.some.injEq] at h
    subst h
    simp
  | cons p ps ih =>
    intro keyed h
    simp only [keyedCandidates, List.mapM_cons] at h
    cases hv : Polytope.volume b p with
    | none => rw [hv] at h; simp [Option.map_none] at h
    | some v =>
      rw [hv] at h
      cases hrest : ps.mapM (fun p => (Polytope.volume b p).map (fun v => (v, p))) with
      | none =>
        rw [hrest] at h
        simp at h
      | some rest =>
        rw [hrest] at h
        replace h : some ((v, p) :: rest) = some keyed := h
        obtain ⟨hmap, hmem⟩ := ih rest hrest
        cases Option.some.inj h
        constructor
        · simp [hmap]
        · intro e he
          rcases List.mem_cons.mp he with rfl | he
          · exact hv
          · exact hmem e he

theorem trimScan_spec (b : Backend) (fixedP : Polytope) :
    ∀ (rev suffix R : List Polytope), trimScan b fixedP rev suffix = some R →
      ∃ kept, R = kept ++ suffix ∧ List.Sublist kept rev.reverse ∧
        ∀ l1 x l2, kept = l1 ++ x :: l2 →
          ∃ pre, List.Sublist l1 pre ∧ List.Sublist pre rev.reverse ∧
            Polytope.contains b
              ((pre ++ (l2 ++ suffix)).foldl Polytope.union fixedP) x = some false := by
  intro rev
  induction rev with
  | nil =>
    intro suffix R h
    simp only [trimScan, Option.some.injEq] at h
    subst h
    refine ⟨[], by simp, by simp, ?_⟩
    intro l1 x l2 hk
    exact absurd hk (by simp)
  | cons x0 rev' ih =>
    intro suffix R h
    simp only [trimScan] at h
    cases hc : Polytope.contains b
        ((rev'.reverse ++ suffix).foldl Polytope.union fixedP) x0 with
    | none => rw [hc] at h; cases h
    | some c =>
      rw [hc] at h
      replace h : (if c then trimScan b fixedP rev' suffix
          else trimScan b fixedP rev' (x0 :: suffix)) = some R := h
      cases c with
      | true =>
        rw [if_pos rfl] at h
        obtain ⟨kept, hR, hsub, hfacts⟩ := ih suffix R h
        refine ⟨kept, hR, hsub.trans (by simp), ?_⟩
        intro l1 x l2 hk
        obtain ⟨pre, h1, h2, h3⟩ := hfacts l1 x l2 hk
        exact ⟨pre, h1, h2.trans (by simp), h3⟩
      | false =>
        rw [if_neg (by decide)] at h
        obtain ⟨kept', hR, hsub, hfacts⟩ := ih (x0 :: suffix) R h
        refine ⟨kept' ++ [x0], by simp [hR], ?_, ?_⟩
        · simp only [List.reverse_cons]
          exact List.Sublist.append hsub (List.Sublist.refl _)
        · intro l1 x l2 hk
          rcases List.eq_nil_or_concat l2 with rfl | ⟨l2', z, rfl⟩
          · have hlen : kept'.length = l1.length := by
              have := congrArg List.length hk
              simp at this
              omega
            obtain ⟨rfl, h2⟩ := List.append_inj hk hlen
            have hx0 : x0 = x := by simpa using h2
            subst hx0
            refine ⟨rev'.reverse, hsub, by simp, ?_⟩
            simpa using hc
          · rw [List.concat_eq_append] at hk
            have hk2 : kept' ++ [x0] = (l1 ++ x :: l2') ++ [z] := by
              rw [hk]
              simp
            have hlen : kept'.length = (l1 ++ x :: l2').length := by
              have := congrArg List.length hk2
              simp [List.length_append, List.length_cons] at this ⊢
              omega
            obtain ⟨hkept, h2⟩ := List.append_inj hk2 hlen
            have hz : x0 = z := by simpa using h2
            subst hz
            obtain ⟨pre, h1, h2, h3⟩ := hfacts l1 x l2' hkept
            refine ⟨pre, h1, h2.trans (by simp), ?_⟩
            have harr : l2' ++ (x0 :: suffix) = (l2' ++ [x0]) ++ suffix := by simp
            rw [harr] at h3
            simpa using h3

/-- The removal rule of the claim, transcribed step by step: scanning the
sorted candidates from the last (smallest-volume) one to the first,
`x :: revBefore` is the not-yet-scanned part in reverse order (`x` is the
candidate currently under test and `revBefore.reverse` are the candidates
before it, all still present), and `survivorsAfter` holds the already-scanned
survivors.  The current candidate is removed exactly when the union of the
fixed polytope with all other remaining candidates — the earlier candidates
followed by the later survivors, in list order — contains it (test result
`some true`), and is kept exactly when that test returns `some false`;
`out` is the final survivor list. -/
def trimRemovalRule (b : Backend) (fixedP : Polytope) :
    List Polytope → List Polytope → List Polytope → Prop
  | [], survivorsAfter, out => out = survivorsAfter
  | x :: revBefore, survivorsAfter, out =>
      (Polytope.contains b
          ((revBefore.reverse ++ survivorsAfter).foldl Polytope.union fixedP) x =
          some true ∧
        trimRemovalRule b fixedP revBefore survivorsAfter out) ∨
      (Polytope.contains b
          ((revBefore.reverse ++ survivorsAfter).foldl Polytope.union fixedP) x =
          some false ∧
        trimRemovalRule b fixedP revBefore (x :: survivorsAfter) out)

theorem trimScan_iff_rule (b : Backend) (fixedP : Polytope) :
    ∀ (rev suffix R : List Polytope),
      trimScan b fixedP rev suffix = some R ↔ trimRemovalRule b fixedP rev suffix R := by
  intro rev
  induction rev with
  | nil =>
    intro suffix R
    constructor
    · intro h
      replace h : some suffix = some R := h
      exact (Option.some.inj h).symm
    · intro h
      show some suffix = some R
      rw [h]
  | cons x rev' ih =>
    intro suffix R
    constructor
    · intro h
      simp only [trimScan] at h
      cases hc : Polytope.contains b
          ((rev'.reverse ++ suffix).foldl Polytope.union fixedP) x with
      | none => rw [hc] at h; cases h
      | some c =>
        rw [hc] at h
        replace h : (if c then trimScan b fixedP rev' suffix
            else trimScan b fixedP rev' (x :: suffix)) = some R := h
        cases c with
        | true =>
          rw [if_pos rfl] at h
          exact Or.inl ⟨hc, (ih suffix R).mp h⟩
        | false =>
          rw [if_neg (by decide)] at h
          exact Or.inr ⟨hc, (ih (x :: suffix) R).mp h⟩
    · intro h
      rcases h with ⟨hc, hrel⟩ | ⟨hc, hrel⟩
      · show (do
            let c ← Polytope.contains b
              ((rev'.reverse ++ suffix).foldl Polytope.union fixedP) x
            if c then trimScan b fixedP rev' suffix
            else trimScan b fixedP rev' (x :: suffix)) = some R
        rw [hc]
        show trimScan b fixedP rev' suffix = some R
        exact (ih suffix R).mpr hrel
      · show (do
            let c ← Polytope.contains b
              ((rev'.reverse ++ suffix).foldl Polytope.union fixedP) x
            if c then trimScan b fixedP rev' suffix
            else trimScan b fixedP rev' (x :: suffix)) = some R
        rw [hc]
        show trimScan b fixedP rev' (x :: suffix) = some R
        exact (ih (x :: suffix) R).mpr hrel

/-- Shared characterization of a successful `trim_polytope_set` run: the keys
are the candidate volumes; the sorted list is pairwise descending; sorting is
stable (filtering at any key value preserves the input order); the result is a
sublist of the sorted candidates; and every survivor failed its containment
test against a union of the fixed polytope with a superset of the other
survivors. -/
theorem trim_spec_aux (b : Backend) (S : List Polytope) (F : Option (List Polytope))
    (R : List Polytope) (h : trim_polytope_set b S F = some R) :
    ∃ keyed, keyedCandidates b S = some keyed ∧
      keyed.map (fun e => e.2) = S ∧
      (∀ e ∈ keyed, Polytope.volume b e.2 = some e.1) ∧
      List.Pairwise (fun u v => keyGeB u v = true) (sortDescKeyed keyed) ∧
      (∀ k, (sortDescKeyed keyed).filter (fun e => e.1 == k) =
        keyed.filter (fun e => e.1 == k)) ∧
      List.Sublist R ((sortDescKeyed keyed).map (fun e => e.2)) ∧
      (∀ l1 x l2, R = l1 ++ x :: l2 → ∃ pre, List.Sublist l1 pre ∧
        Polytope.contains b
          ((pre ++ l2).foldl Polytope.union (fixedUnion F)) x = some false) := by
  unfold trim_polytope_set at h
  cases hkd : keyedCandidates b S with
  | none => rw [hkd] at h; cases h
  | some keyed =>
    rw [hkd] at h
    replace h : trimScan b (fixedUnion F)
        ((sortDescKeyed keyed).map (fun e => e.2)).reverse [] = some R := h
    obtain ⟨kept, hR, hsub, hfacts⟩ := trimScan_spec b (fixedUnion F) _ _ _ h
    rw [List.append_nil] at hR
    subst hR
    obtain ⟨hmap, hmem⟩ := keyedCandidates_spec b S keyed hkd
    rw [List.reverse_reverse] at hsub
    refine ⟨keyed, rfl, hmap, hmem, pairwise_sortDescKeyed keyed,
      fun k => filter_sortDescKeyed k keyed, hsub, ?_⟩
    intro l1 x l2 hk
    obtain ⟨pre, h1, h2, h3⟩ := hfacts l1 x l2 hk
    rw [List.append_nil] at h3
    exact ⟨pre, h1, h3⟩

/-- Claim C7: `trim_polytope_set` sorts the candidates by volume in descending
order (stably: candidates with equal volume keys keep their original relative
order), then scans from the last (smallest-volume) candidate to the first and
removes a candidate exactly when the union of the fixed context polytope with
all other still-remaining candidates — the candidates before it, still all
present, followed by the survivors after it — contains it, per the step-by-step
`trimRemovalRule`; the survivors are returned in their post-sort relative
order, as a sublist of the sorted candidate list (so context polytopes are
never removed, only candidates are). -/
theorem thm_C7 (b : Backend) (S : List Polytope) (F : Option (List Polytope))
    (R : List Polytope) (h : trim_polytope_set b S F = some R) :
    ∃ keyed, keyedCandidates b S = some keyed ∧
      keyed.map (fun e => e.2) = S ∧
      (∀ e ∈ keyed, Polytope.volume b e.2 = some e.1) ∧
      List.Pairwise (fun u v => keyGeB u v = true) (sortDescKeyed keyed) ∧
      (∀ k, (sortDescKeyed keyed).filter (fun e => e.1 == k) =
        keyed.filter (fun e => e.1 == k)) ∧
      List.Sublist R ((sortDescKeyed keyed).map (fun e => e.2)) ∧
      trimRemovalRule b (fixedUnion F)
        ((sortDescKeyed keyed).map (fun e => e.2)).reverse [] R := by
  obtain ⟨keyed, hkd, hmap, hmem, hpair, hfil, hsub, -⟩ := trim_spec_aux b S F R h
  refine ⟨keyed, hkd, hmap, hmem, hpair, hfil, hsub, ?_⟩
  unfold trim_polytope_set at h
  rw [hkd] at h
  replace h : trimScan b (fixedUnion F)
      ((sortDescKeyed keyed).map (fun e => e.2)).reverse [] = some R := h
  exact (trimScan_iff_rule b (fixedUnion F)
    ((sortDescKeyed keyed).map (fun e => e.2)).reverse [] R).mp h

/-- Witness for C7: a concrete run of `trim_polytope_set` at the backend `bW`
with the single candidate `qW` and no fixed polytopes, which keeps `qW`. -/
theorem tw_C7 :
    trim_polytope_set bW [qW] none = some [qW] ∧
    (∃ keyed, keyedCandidates bW [qW] = some keyed ∧
      keyed.map (fun e => e.2) = [qW] ∧
      (∀ e ∈ keyed, Polytope.volume bW e.2 = some e.1) ∧
      List.Pairwise (fun u v => keyGeB u v = true) (sortDescKeyed keyed) ∧
      (∀ k, (sortDescKeyed keyed).filter (fun e => e.1 == k) =
        keyed.filter (fun e => e.1 == k)) ∧
      List.Sublist [qW] ((sortDescKeyed keyed).map (fun e => e.2)) ∧
      trimRemovalRule bW (fixedUnion none)
        ((sortDescKeyed keyed).map (fun e => e.2)).reverse [] [qW]) :=
  ⟨by decide, thm_C7 bW [qW] none [qW] (by decide)⟩

theorem flatten_sublist_of_sublist {α : Type} {L1 L2 : List (List α)}
    (h : List.Sublist L1 L2) : List.Sublist L1.flatten L2.flatten := by
  induction h with
  | slnil => simp
  | cons a h ih => rw [List.flatten_cons]; exact ih.trans (List.sublist_append_right _ _)
  | cons₂ a h ih => rw [List.flatten_cons, List.flatten_cons]; exact ih.append_left _

theorem foldl_union_eq (lst : List Polytope) (P : Polytope)
    (hv : P.memoVolume = none) (hx : P.memoVertices = none) :
    lst.foldl Polytope.union P =
      { convex_subpolytopes :=
          P.convex_subpolytopes ++
            (lst.map (fun q => q.convex_subpolytopes)).flatten,
        memoVolume := none, memoVertices := none } := by
  induction lst generalizing P with
  | nil =>
    obtain ⟨comps, mv, mx⟩ := P
    simp only at hv hx
    subst hv; subst hx
    simp
  | cons q qs ih =>
    rw [List.foldl_cons, ih (P.union q) rfl rfl]
    simp [Polytope.union, List.append_assoc]

theorem fixedUnion_memo (F : Option (List Polytope)) :
    (fixedUnion F).memoVolume = none ∧ (fixedUnion F).memoVertices = none := by
  cases F with
  | none => exact ⟨rfl, rfl⟩
  | some fps =>
    show (fps.foldl Polytope.union { convex_subpolytopes := [] }).memoVolume = none ∧
      (fps.foldl Polytope.union { convex_subpolytopes := [] }).memoVertices = none
    rw [foldl_union_eq fps { convex_subpolytopes := [] } rfl rfl]
    exact ⟨rfl, rfl⟩

theorem mem_sortDescKeyed {z : PolytopeVolume × Polytope}
    {l : List (PolytopeVolume × Polytope)} (h : z ∈ sortDescKeyed l) : z ∈ l := by
  induction l with
  | nil => exact absurd h (by simp [sortDescKeyed])
  | cons x xs ih =>
    have h' : z ∈ insertDesc x (sortDescKeyed xs) := h
    rcases mem_insertDesc.mp h' with rfl | h'
    · exact List.mem_cons_self _ _
    · exact List.mem_cons_of_mem _ (ih h')

theorem keyedCandidates_of_pairs (b : Backend) :
    ∀ (ks : List (PolytopeVolume × Polytope)),
      (∀ e ∈ ks, Polytope.volume b e.2 = some e.1) →
      keyedCandidates b (ks.map (fun e => e.2)) = some ks := by
  intro ks
  induction ks with
  | nil => intro _; rfl
  | cons e es ih =>
    intro hmem
    have he : Polytope.volume b e.2 = some e.1 := hmem e (List.mem_cons_self _ _)
    have hrest := ih (fun x hx => hmem x (List.mem_cons_of_mem _ hx))
    simp only [keyedCandidates, List.map_cons, List.mapM_cons, he]
    simp only [keyedCandidates] at hrest
    rw [hrest]
    rfl

theorem any_congr_local {α : Type} {l : List α} {p q : α → Bool}
    (h : ∀ a ∈ l, p a = q a) : l.any p = l.any q := by
  induction l with
  | nil => rfl
  | cons a as ih =>
    simp only [List.any_cons]
    rw [h a (List.mem_cons_self _ _), ih (fun x hx => h x (List.mem_cons_of_mem _ hx))]

theorem any_map_local {α β : Type} (l : List α) (f : α → β) (p : β → Bool) :
    (l.map f).any p = l.any (fun a => p (f a)) := by
  induction l with
  | nil => rfl
  | cons a as ih => simp only [List.map_cons, List.any_cons, ih]

theorem foldlM_option_inv {σ α : Type} (f : σ → α → Option σ) (P : σ → Prop)
    (hf : ∀ s a, P s → ∃ s', f s a = some s' ∧ P s') :
    ∀ (l : List α) (s : σ), P s → ∃ s', l.foldlM f s = some s' ∧ P s' := by
  intro l
  induction l with
  | nil => intro s hs; exact ⟨s, rfl, hs⟩
  | cons a as ih =>
    intro s hs
    obtain ⟨s1, hs1, hp1⟩ := hf s a hs
    obtain ⟨s2, hs2, hp2⟩ := ih s1 hp1
    refine ⟨s2, ?_, hp2⟩
    rw [List.foldlM_cons, hs1]
    exact hs2

/-- The trivial backend used to discharge the containment-monotonicity
hypothesis of the idempotence theorem: every convex region is assigned zero
volume and an empty vertex list. -/
def bT : Backend :=
  { volume := fun _ => some { dimension := 0, volume := 0 },
    vertices := fun _ => some [],
    reduce := fun cp => some cp }

theorem vol_const_bT (comps : List ConvexPolytope) :
    computeVolume bT comps = some { dimension := 0, volume := 0 } := by
  have htop : ∀ (cs : List ConvexPolytope) (t : Nat),
      cs.foldl (fun t c => max t (ConvexPolytope.volume bT c).dimension) t = t := by
    intro cs
    induction cs with
    | nil => intro t; rfl
    | cons c cs ih =>
      intro t
      have h1 : max t (ConvexPolytope.volume bT c).dimension = t := by
        simp [ConvexPolytope.volume, bT]
      rw [List.foldl_cons, h1]
      exact ih t
  have hsigned : ∀ d, signedAccum d { dimension := 0, volume := 0 }
      { dimension := 0, volume := 0 } = some { dimension := 0, volume := 0 } := by
    intro d
    unfold signedAccum PolytopeVolume.sub PolytopeVolume.add
    by_cases hd : d % 2 = 1 <;> simp [hd]
  have hf1 : ∀ (d : Nat) (st : IEState) (bits : Nat),
      (st.vol = { dimension := 0, volume := 0 } ∧
        ∀ i, st.prev i = none ∨ st.prev i = some { dimension := 0, volume := 0 }) →
      ∃ st', ieFirstStep bT comps 0 d st bits = some st' ∧
        (st'.vol = { dimension := 0, volume := 0 } ∧
          ∀ i, st'.prev i = none ∨ st'.prev i = some { dimension := 0, volume := 0 }) := by
    rintro d st bits ⟨hv, hp⟩
    unfold ieFirstStep
    by_cases hskip : (st.skips.any fun mask => mask &&& bits == mask) = true
    · rw [if_pos hskip]
      exact ⟨st, rfl, hv, hp⟩
    · rw [if_neg hskip]
      have hpv : ConvexPolytope.volume bT (subsetIntersection comps bits) =
          { dimension := 0, volume := 0 } := rfl
      rw [hpv]
      have hsk : (if ({ dimension := 0, volume := 0 } : PolytopeVolume).dimension < 0
          then st.skips ++ [bits] else st.skips) = st.skips := by simp
      rw [hsk]
      unfold ieFirstParent
      split
      · refine ⟨_, rfl, hv, fun i => ?_⟩
        by_cases hib : i = bits
        · subst hib; simp
        · simpa [hib] using hp i
      · rw [hv, hsigned d]
        refine ⟨_, rfl, rfl, fun i => ?_⟩
        by_cases hib : i = bits
        · subst hib; simp
        · simpa [hib] using hp i
  have hf2 : ∀ (d : Nat) (skips : List Nat) (prev : Nat → Option PolytopeVolume),
      (∀ i, prev i = none ∨ prev i = some { dimension := 0, volume := 0 }) →
      ∀ (v : PolytopeVolume) (bits : Nat), v = { dimension := 0, volume := 0 } →
      ∃ v2, ieSecondStep d skips prev v bits = some v2 ∧
        v2 = { dimension := 0, volume := 0 } := by
    intro d skips prev hp v bits hv
    unfold ieSecondStep
    cases hpb : prev bits with
    | none => exact ⟨v, rfl, hv⟩
    | some pv =>
      have hpv : pv = { dimension := 0, volume := 0 } := by
        rcases hp bits with h | h
        · rw [hpb] at h; cases h
        · rw [hpb] at h; exact Option.some.inj h
      subst hpv
      subst hv
      refine ⟨{ dimension := 0, volume := 0 }, ?_, rfl⟩
      show (if (skips.any fun mask => bits &&& mask == mask) = true
          then some { dimension := 0, volume := 0 }
          else signedAccum d { dimension := 0, volume := 0 }
            { dimension := 0, volume := 0 }) =
        some { dimension := 0, volume := 0 }
      by_cases hsk : (skips.any fun mask => bits &&& mask == mask) = true
      · rw [if_pos hsk]
      · rw [if_neg hsk, hsigned d]
  have main := foldlM_option_inv
    (fun (st : IEState) d => do
      let st1 ← (bit_iteration comps.length (1 + d)).foldlM (ieFirstStep bT comps 0 d) st
      let v2 ← (bit_iteration comps.length (1 + d)).foldlM
        (ieSecondStep d st1.skips st1.prev) st1.vol
      pure { st1 with vol := v2 })
    (fun st => st.vol = { dimension := 0, volume := 0 } ∧
      ∀ i, st.prev i = none ∨ st.prev i = some { dimension := 0, volume := 0 })
    (by
      rintro st d ⟨hv, hp⟩
      obtain ⟨st1, hst1, hp1⟩ := foldlM_option_inv (ieFirstStep bT comps 0 d) _
        (hf1 d) (bit_iteration comps.length (1 + d)) st ⟨hv, hp⟩
      obtain ⟨v2, hv2, hpv2⟩ := foldlM_option_inv
        (ieSecondStep d st1.skips st1.prev)
        (fun v => v = { dimension := 0, volume := 0 })
        (fun v bits hvv => hf2 d st1.skips st1.prev hp1.2 v bits hvv)
        (bit_iteration comps.length (1 + d)) st1.vol hp1.1
      refine ⟨{ st1 with vol := v2 }, ?_, hpv2, hp1.2⟩
      show (do
        let stA ← (bit_iteration comps.length (1 + d)).foldlM (ieFirstStep bT comps 0 d) st
        let vB ← (bit_iteration comps.length (1 + d)).foldlM
          (ieSecondStep d stA.skips stA.prev) stA.vol
        pure { stA with vol := vB }) = some { st1 with vol := v2 }
      rw [hst1]
      exact (by
        rw [hv2]
        rfl :
        ((bit_iteration comps.length (1 + d)).foldlM
          (ieSecondStep d st1.skips st1.prev) st1.vol).bind
          (fun vB => pure { st1 with vol := vB }) = some { st1 with vol := v2 }))
    (List.range comps.length)
    { vol := { dimension := 0, volume := 0 }, skips := [], prev := fun _ => none }
    ⟨rfl, fun i => Or.inl rfl⟩
  obtain ⟨final, hfinal, hfv, _⟩ := main
  unfold computeVolume
  simp only [htop comps 0]
  rw [hfinal]
  show some final.vol = _
  rw [hfv]

theorem contains_bT_eval (C : List ConvexPolytope) (x : Polytope) :
    Polytope.contains bT { convex_subpolytopes := C } x =
      if (x.vertices bT).any (fun lsv => lsv.any (fun _ => true)) then some false
      else (do
        let lv ← Polytope.volume bT x
        pure (({ dimension := 0, volume := 0 } : PolytopeVolume) == lv)) := by
  rw [contains_eq_phase]
  have hphase : containsVertexBool bT { convex_subpolytopes := C } x =
      (x.vertices bT).any (fun lsv => lsv.any (fun _ => true)) := by
    unfold containsVertexBool
    apply any_congr_local
    intro lsv hlsv
    apply any_congr_local
    intro v hv
    have hcap : ((x.intersect { convex_subpolytopes := C }).vertices bT).any
        (fun csv => csv.contains v) = false := by
      have h1 : (x.intersect { convex_subpolytopes := C }).vertices bT =
          (x.intersect { convex_subpolytopes := C }).convex_subpolytopes.map
            (fun c => ConvexPolytope.vertices bT c) := rfl
      rw [h1, any_map_local, List.any_eq_false]
      intro c hc
      show ¬((ConvexPolytope.vertices bT c).contains v = true)
      have h2 : ConvexPolytope.vertices bT c = [] := rfl
      rw [h2]
      simp
    rw [hcap]
    rfl
  rw [hphase]
  by_cases hb : (x.vertices bT).any (fun lsv => lsv.any (fun _ => true)) = true
  · rw [if_pos hb, if_pos hb]
  · rw [if_neg hb, if_neg hb]
    cases hlv : Polytope.volume bT x with
    | none => rfl
    | some lv =>
      have hcv : Polytope.volume bT (x.intersect { convex_subpolytopes := C }) =
          some { dimension := 0, volume := 0 } := vol_const_bT _
      show ((x.intersect { convex_subpolytopes := C }).volume bT).bind
        (fun cv => pure (cv == lv)) =
        some (({ dimension := 0, volume := 0 } : PolytopeVolume) == lv)
      rw [hcv]
      rfl

theorem contains_bT_indep (A B : List ConvexPolytope) (x : Polytope) :
    Polytope.contains bT { convex_subpolytopes := A } x =
      Polytope.contains bT { convex_subpolytopes := B } x :=
  (contains_bT_eval A x).trans (contains_bT_eval B x).symm

theorem trimScan_no_removal (b : Backend) (fixedP : Polytope)
    (hfv : fixedP.memoVolume = none) (hfx : fixedP.memoVertices = none)
    (R : List Polytope)
    (Hfalse : ∀ (x : Polytope) (A B : List ConvexPolytope), List.Sublist A B →
      Polytope.contains b { convex_subpolytopes := B } x = some false →
      Polytope.contains b { convex_subpolytopes := A } x = some false)
    (hfacts : ∀ l1 x l2, R = l1 ++ x :: l2 → ∃ pre, List.Sublist l1 pre ∧
      Polytope.contains b ((pre ++ l2).foldl Polytope.union fixedP) x = some false) :
    ∀ (rev l2 : List Polytope), rev.reverse ++ l2 = R →
      trimScan b fixedP rev l2 = some R := by
  intro rev
  induction rev with
  | nil =>
    intro l2 hR
    simp only [List.reverse_nil, List.nil_append] at hR
    subst hR
    rfl
  | cons x rev' ih =>
    intro l2 hR
    have hsplit : R = rev'.reverse ++ x :: l2 := by
      rw [← hR]
      simp
    obtain ⟨pre, hpre, hcon⟩ := hfacts rev'.reverse x l2 hsplit
    have hsubub : List.Sublist (rev'.reverse ++ l2) (pre ++ l2) :=
      List.Sublist.append hpre (List.Sublist.refl _)
    have hB := foldl_union_eq (pre ++ l2) fixedP hfv hfx
    have hA := foldl_union_eq (rev'.reverse ++ l2) fixedP hfv hfx
    have hcomps : List.Sublist
        (fixedP.convex_subpolytopes ++
          (((rev'.reverse ++ l2).map (fun q => q.convex_subpolytopes)).flatten))
        (fixedP.convex_subpolytopes ++
          (((pre ++ l2).map (fun q => q.convex_subpolytopes)).flatten)) :=
      (flatten_sublist_of_sublist (hsubub.map _)).append_left _
    rw [hB] at hcon
    have hconA := Hfalse x _ _ hcomps hcon
    have hcon2 : Polytope.contains b
        ((rev'.reverse ++ l2).foldl Polytope.union fixedP) x = some false := by
      rw [hA]
      exact hconA
    show (do
      let c ← Polytope.contains b ((rev'.reverse ++ l2).foldl Polytope.union fixedP) x
      if c then trimScan b fixedP rev' l2 else trimScan b fixedP rev' (x :: l2)) = some R
    rw [hcon2]
    show trimScan b fixedP rev' (x :: l2) = some R
    exact ih (x :: l2) hsplit.symm

/-- Claim C3: `trim_polytope_set` is a fixed point of itself: running it again
on its own output, with the same fixed context, removes nothing and returns
the same sequence.  The hypothesis `Hfalse` expresses the geometric
monotonicity of the containment test that the algorithm relies on: if a union
fails to contain a polytope, so does any union built from a subsequence of its
components (true of exact geometric containment; the containment test is a
backend-dependent semi-decision, so it is assumed here of the backend). -/
theorem thm_C3 (b : Backend) (S : List Polytope) (F : Option (List Polytope))
    (R : List Polytope)
    (Hfalse : ∀ (x : Polytope) (A B : List ConvexPolytope), List.Sublist A B →
      Polytope.contains b { convex_subpolytopes := B } x = some false →
      Polytope.contains b { convex_subpolytopes := A } x = some false)
    (h : trim_polytope_set b S F = some R) :
    trim_polytope_set b R F = some R := by
  obtain ⟨keyed, hkd, hmap, hmem, hpair, hfil, hsub, hfacts⟩ := trim_spec_aux b S F R h
  obtain ⟨keyed2, hk2sub, hk2map⟩ := List.sublist_map_iff.mp hsub
  have hmem2 : ∀ e ∈ keyed2, Polytope.volume b e.2 = some e.1 := by
    intro e he
    exact hmem e (mem_sortDescKeyed (hk2sub.subset he))
  have hkd2 : keyedCandidates b R = some keyed2 := by
    rw [hk2map]
    exact keyedCandidates_of_pairs b keyed2 hmem2
  have hpair2 : List.Pairwise (fun u v => keyGeB u v = true) keyed2 :=
    (pairwise_sortDescKeyed keyed).sublist hk2sub
  have hsort2 : sortDescKeyed keyed2 = keyed2 := sortDescKeyed_of_pairwise hpair2
  unfold trim_polytope_set
  rw [hkd2]
  show trimScan b (fixedUnion F) ((sortDescKeyed keyed2).map (fun e => e.2)).reverse []
    = some R
  rw [hsort2, ← hk2map]
  refine trimScan_no_removal b (fixedUnion F) (fixedUnion_memo F).1 (fixedUnion_memo F).2
    R Hfalse ?_ R.reverse [] (by simp)
  intro l1 x l2 hk
  obtain ⟨pre, h1, h3⟩ := hfacts l1 x l2 hk
  exact ⟨pre, h1, h3⟩

/-- A coherent polytope with no components whose memo cells were populated by
prior accessor calls; used by the C3 witness. -/
def pE : Polytope :=
  { convex_subpolytopes := [],
    memoVolume := some { dimension := 0, volume := 0 },
    memoVertices := some [] }

/-- Witness for C3: at the trivial backend `bT` the empty-region candidate
`pE` is absorbed by the empty fixed union, the first run returns the empty
list, and the second run on that output returns it unchanged. -/
theorem tw_C3 :
    trim_polytope_set bT [pE] none = some [] ∧
    trim_polytope_set bT [] none = some [] :=
  ⟨by decide,
    thm_C3 bT [pE] none []
      (fun x A B hsub hB => (contains_bT_indep A B x).trans hB)
      (by decide)⟩

/-- Operation identifiers of the coverage sets (gate tags); modelled as an
arbitrary countable vocabulary. -/
abbrev Operation : Type := Nat

/-- Embeds `ConvexPolytopeData` (monodromy/io/base.py): the raw constraint
lists of one convex body, as consumed by `paths.py`. -/
structure ConvexPolytopeData where
  inequalities : List Row
  equalities : List Row
deriving DecidableEq

/-- Embeds `PolytopeData`: a union of raw convex bodies. -/
structure PolytopeData where
  convex_subpolytopes : List ConvexPolytopeData
deriving DecidableEq

/-- Embeds `CircuitPolytopeData`: a polytope annotated with the operation
sequence reaching it and its cost. -/
structure CircuitPolytopeData where
  convex_subpolytopes : List ConvexPolytopeData
  operations : List Operation
  cost : Rat
deriving DecidableEq

/-- Modelled from the spec: the two helpers `polyhedron_has_element` and
`manual_get_random_vertex` imported from `monodromy/xx_decompose/scipy.py`,
which is not part of the sources.  Per the spec (section 6), the former is a
membership test of a point in a circuit polytope and the latter attempts to
extract one feasible vertex of a region, failing (`none`, the
`NoFeasibleSolutions` exception) possibly even for feasible regions. -/
structure ScipyEnv where
  polyhedron_has_element : CircuitPolytopeData → List Rat → Bool
  manual_get_random_vertex : PolytopeData → Option (List Rat)

/-- The dot product `sum(x * y for x, y in zip(xs, target))` (zip truncates). -/
def dotZip (a t : List Rat) : Rat := ((a.zip t).map (fun p => p.1 * p.2)).sum

/-- Embeds the constraint transformation of
`single_unordered_decomposition_hop`: fold the target coordinates into the
constant term and keep the first three coordinate coefficients:
`[c0 + sum(c4.. * target), c1, c2, c3]`. -/
def imposeRow (target : List Rat) (row : Row) : Row :=
  [row.getD 0 0 + dotZip (row.drop 4) target,
   row.getD 1 0, row.getD 2 0, row.getD 3 0]

/-- The transformation applied to each convex component of an ancestor. -/
def imposeTargetCP (target : List Rat) (cp : ConvexPolytopeData) : ConvexPolytopeData :=
  { inequalities := cp.inequalities.map (imposeRow target),
    equalities := cp.equalities.map (imposeRow target) }

/-- The failures of the path-decomposition search: the unreachable-target
`ValueError`, the `NoBacksolution` exception, and the `IndexError` raised by
`operations[-1]` on an empty operation list. -/
inductive PathError
  | unreachableTarget
  | noBacksolution
  | indexError
deriving DecidableEq

/-- The dictionary returned by a successful hop. -/
structure HopResult where
  hop : List Rat × Operation × List Rat
  ancestor : List Rat
  operations_remaining : List Operation
deriving DecidableEq

/-- The ancestor loop of `single_unordered_decomposition_hop` (paths.py lines
49-86).  `acc` is the component list of the `backsolution_polytope`, which the
Python code creates once before the loop and extends (`+=`) at every matching
ancestor, so it accumulates across ancestors. -/
def hopAux (env : ScipyEnv) (target : List Rat) (working : List Operation)
    (acc : List ConvexPolytopeData) :
    List CircuitPolytopeData → Except PathError HopResult
  | [] => .error .noBacksolution
  | ancestor :: rest =>
    if Multiset.ofList ancestor.operations = Multiset.ofList working then
      match env.manual_get_random_vertex
        { convex_subpolytopes :=
            acc ++ ancestor.convex_subpolytopes.map (imposeTargetCP target) } with
      | some solution =>
          match ancestor.operations.getLast? with
          | some op => .ok { hop := (solution, op, target), ancestor := solution,
                             operations_remaining := ancestor.operations.dropLast }
          | none => .error .indexError
      | none => hopAux env target working
          (acc ++ ancestor.convex_subpolytopes.map (imposeTargetCP target)) rest
    else hopAux env target working acc rest

/-- Embeds `single_unordered_decomposition_hop`: the accumulator starts from
the empty `PolytopeData`. -/
def single_unordered_decomposition_hop (env : ScipyEnv) (target : List Rat)
    (working_operations : List Operation)
    (scipy_coverage_set : List CircuitPolytopeData) : Except PathError HopResult :=
  hopAux env target working_operations [] scipy_coverage_set

/-- The hop as the spec describes it (section 4.4 step 4), for comparison with
the implementation: the backsolution region offered to the vertex extractor at
each matching ancestor consists exactly of that ancestor's own transformed
convex components (no accumulation across ancestors). -/
def hopPerAncestorSpec (env : ScipyEnv) (target : List Rat)
    (working : List Operation) :
    List CircuitPolytopeData → Except PathError HopResult
  | [] => .error .noBacksolution
  | ancestor :: rest =>
    if Multiset.ofList ancestor.operations = Multiset.ofList working then
      match env.manual_get_random_vertex
        { convex_subpolytopes :=
            ancestor.convex_subpolytopes.map (imposeTargetCP target) } with
      | some solution =>
          match ancestor.operations.getLast? with
          | some op => .ok { hop := (solution, op, target), ancestor := solution,
                             operations_remaining := ancestor.operations.dropLast }
          | none => .error .indexError
      | none => hopPerAncestorSpec env target working rest
    else hopPerAncestorSpec env target working rest

/-- Whether an ancestor entry matches the working operations as a multiset
(the `Counter` comparison). -/
def matchesOps (working : List Operation) (a : CircuitPolytopeData) : Bool :=
  decide (Multiset.ofList a.operations = Multiset.ofList working)

/-- The amended description of the hop: restricted to the matching ancestors,
the region offered to the vertex extractor at the `k`-th matching ancestor is
the concatenation of the transformed components of matching ancestors
`1..k` (the accumulator), and a found vertex is paired with the current
ancestor's last operation. -/
def hopOverMatching (env : ScipyEnv) (target : List Rat)
    (acc : List ConvexPolytopeData) :
    List CircuitPolytopeData → Except PathError HopResult
  | [] => .error .noBacksolution
  | a :: rest =>
    match env.manual_get_random_vertex
      { convex_subpolytopes :=
          acc ++ a.convex_subpolytopes.map (imposeTargetCP target) } with
    | some solution =>
        match a.operations.getLast? with
        | some op => .ok { hop := (solution, op, target), ancestor := solution,
                           operations_remaining := a.operations.dropLast }
        | none => .error .indexError
    | none => hopOverMatching env target
        (acc ++ a.convex_subpolytopes.map (imposeTargetCP target)) rest

theorem hopAux_eq_matching (env : ScipyEnv) (t : List Rat) (w : List Operation) :
    ∀ (set : List CircuitPolytopeData) (acc : List ConvexPolytopeData),
      hopAux env t w acc set = hopOverMatching env t acc (set.filter (matchesOps w)) := by
  intro set
  induction set with
  | nil => intro acc; rfl
  | cons a rest ih =>
    intro acc
    by_cases hm : Multiset.ofList a.operations = Multiset.ofList w
    · have hfil : (a :: rest).filter (matchesOps w) =
          a :: rest.filter (matchesOps w) := by
        rw [List.filter_cons, if_pos (by simp [matchesOps, hm])]
      rw [hfil]
      simp only [hopAux, hopOverMatching]
      rw [if_pos hm]
      cases env.manual_get_random_vertex
          { convex_subpolytopes :=
              acc ++ a.convex_subpolytopes.map (imposeTargetCP t) } with
      | some solution => rfl
      | none => exact ih _
    · have hfil : (a :: rest).filter (matchesOps w) = rest.filter (matchesOps w) := by
        rw [List.filter_cons, if_neg (by simp [matchesOps, hm])]
      rw [hfil]
      simp only [hopAux]
      rw [if_neg hm]
      exact ih acc

/-- Claim C2 (amended): the backsolution region in which a vertex is sought is
not the current matching ancestor's region alone; the implementation
accumulates: restricted to the ancestors whose operation multiset equals
`working_operations`, the region offered to the vertex extractor at the `k`-th
matching ancestor is the concatenation of the transformed components
(`[c0 + sum(c4.. * target), c1, c2, c3]` per constraint) of matching ancestors
`1..k`, and a vertex found there is returned as the ancestor point paired with
the current ancestor's last operation (see `hopOverMatching`). -/
theorem thm_C2 (env : ScipyEnv) (target : List Rat)
    (working_operations : List Operation) (scipy_coverage_set : List CircuitPolytopeData) :
    single_unordered_decomposition_hop env target working_operations scipy_coverage_set =
      hopOverMatching env target []
        (scipy_coverage_set.filter (matchesOps working_operations)) :=
  hopAux_eq_matching env target working_operations scipy_coverage_set []

/-- The environment of the C2 counterexample: vertex extraction succeeds only
on a region with exactly two convex components. -/
def env2 : ScipyEnv :=
  { polyhedron_has_element := fun _ _ => true,
    manual_get_random_vertex := fun pd =>
      if pd.convex_subpolytopes.length == 2 then some [9] else none }

/-- First matching ancestor of the C2 counterexample. -/
def ancA : CircuitPolytopeData :=
  { convex_subpolytopes := [{ inequalities := [[1, 0, 0, 0]], equalities := [] }],
    operations := [0], cost := 1 }

/-- Second matching ancestor of the C2 counterexample. -/
def ancB : CircuitPolytopeData :=
  { convex_subpolytopes := [{ inequalities := [[2, 0, 0, 0]], equalities := [] }],
    operations := [0], cost := 1 }

/-- Counterexample for C2 as stated: with two matching ancestors whose own
backsolution regions (one component each) admit no vertex, the code still
succeeds — the extractor is called on the accumulated two-component region and
its vertex is paired with the second ancestor's last operation — whereas under
the spec's per-ancestor regions the hop would fail with no-backsolution; in
particular the region in which the vertex was found is not the second
ancestor's own region, on which extraction fails. -/
theorem cex_C2 :
    single_unordered_decomposition_hop env2 [5] [0] [ancA, ancB] =
      .ok { hop := ([9], 0, [5]), ancestor := [9], operations_remaining := [] } ∧
    hopPerAncestorSpec env2 [5] [0] [ancA, ancB] = .error .noBacksolution ∧
    env2.manual_get_random_vertex
      { convex_subpolytopes := ancB.convex_subpolytopes.map (imposeTargetCP [5]) } =
      none := by
  refine ⟨rfl, rfl, by decide⟩

/-- Embeds the comparison `polytope.cost < best_cost` where `best_cost` starts
at `float("inf")` (modelled as `none`). -/
def costLtBest (c : Rat) : Option Rat → Bool
  | none => true
  | some bc => decide (c < bc)

/-- One iteration of the selection scan: replace the working polytope when the
entry strictly improves the best cost and its region has the target. -/
def selectStep (env : ScipyEnv) (target : List Rat)
    (wb : Option CircuitPolytopeData × Option Rat) (p : CircuitPolytopeData) :
    Option CircuitPolytopeData × Option Rat :=
  if costLtBest p.cost wb.2 && env.polyhedron_has_element p target
  then (some p, some p.cost) else wb

/-- Embeds the selection scan of `scipy_unordered_decomposition_hops`
(paths.py lines 116-120): keep the first entry strictly improving the best
cost among the entries whose region has the target. -/
def selectWorkingPolytope (env : ScipyEnv) (coverage_set : List CircuitPolytopeData)
    (target : List Rat) : Option CircuitPolytopeData :=
  (coverage_set.foldl (selectStep env target)
    ((none : Option CircuitPolytopeData), (none : Option Rat))).1

/-- The `while` loop of `scipy_unordered_decomposition_hops`, by structural
recursion on a fuel initialized to the length of the operation list.  The
fuel-exhausted arm is unreachable: each successful hop shortens the operation
list by exactly one (its ancestor's operation multiset equals the working
list), so the fuel always equals the remaining length. -/
def decomposeLoopAux (env : ScipyEnv) (scov : List CircuitPolytopeData) :
    Nat → List Rat → List Operation →
    Except PathError (List (List Rat × Operation × List Rat))
  | _, _, [] => .ok []
  | 0, _, _ :: _ => .error .noBacksolution
  | fuel + 1, target, op :: ops =>
      match single_unordered_decomposition_hop env target (op :: ops) scov with
      | .error e => .error e
      | .ok r =>
          match decomposeLoopAux env scov fuel r.ancestor r.operations_remaining with
          | .error e => .error e
          | .ok rest => .ok (rest ++ [r.hop])

/-- Embeds `scipy_unordered_decomposition_hops` (paths.py lines 89-138):
select the minimum-cost covering polytope (raising the unreachable-target
`ValueError` when none contains the target), then strip operations one hop at
a time, prepending each hop to the decomposition. -/
def scipy_unordered_decomposition_hops (env : ScipyEnv)
    (coverage_set scipy_coverage_set : List CircuitPolytopeData)
    (target : List Rat) :
    Except PathError (List (List Rat × Operation × List Rat)) :=
  match selectWorkingPolytope env coverage_set target with
  | none => .error .unreachableTarget
  | some w => decomposeLoopAux env scipy_coverage_set
      w.operations.length target w.operations

/-- The chain condition on a decomposition: each triple's target equals the
next triple's source, and the last triple's target is the requested target. -/
def chainOk : List (List Rat × Operation × List Rat) → List Rat → Prop
  | [], _ => True
  | h :: rest, t =>
      match rest with
      | [] => h.2.2 = t
      | h2 :: _ => h.2.2 = h2.1 ∧ chainOk rest t

theorem hopAux_ok_length (env : ScipyEnv) (t : List Rat) (w : List Operation) :
    ∀ (set : List CircuitPolytopeData) (acc : List ConvexPolytopeData) (r : HopResult),
      hopAux env t w acc set = .ok r → r.operations_remaining.length + 1 = w.length := by
  intro set
  induction set with
  | nil => intro acc r h; cases h
  | cons a rest ih =>
    intro acc r h
    by_cases hm : Multiset.ofList a.operations = Multiset.ofList w
    · simp only [hopAux] at h
      rw [if_pos hm] at h
      have hlen : a.operations.length = w.length := by
        have := congrArg Multiset.card hm
        simpa using this
      cases hv : env.manual_get_random_vertex
          { convex_subpolytopes :=
              acc ++ a.convex_subpolytopes.map (imposeTargetCP t) } with
      | some solution =>
        rw [hv] at h
        cases hlast : a.operations.getLast? with
        | some op =>
          rw [hlast] at h
          cases h
          have hne : a.operations ≠ [] := by
            intro hnil
            rw [hnil] at hlast
            cases hlast
          have : a.operations.length ≠ 0 := by
            intro h0
            exact hne (List.eq_nil_of_length_eq_zero h0)
          simp only [List.length_dropLast]
          omega
        | none => rw [hlast] at h; cases h
      | none =>
        rw [hv] at h
        exact ih _ r h
    · simp only [hopAux] at h
      rw [if_neg hm] at h
      exact ih acc r h

theorem hopAux_ok_shape (env : ScipyEnv) (t : List Rat) (w : List Operation) :
    ∀ (set : List CircuitPolytopeData) (acc : List ConvexPolytopeData) (r : HopResult),
      hopAux env t w acc set = .ok r → r.hop.2.2 = t ∧ r.hop.1 = r.ancestor := by
  intro set
  induction set with
  | nil => intro acc r h; cases h
  | cons a rest ih =>
    intro acc r h
    by_cases hm : Multiset.ofList a.operations = Multiset.ofList w
    · simp only [hopAux] at h
      rw [if_pos hm] at h
      cases hv : env.manual_get_random_vertex
          { convex_subpolytopes :=
              acc ++ a.convex_subpolytopes.map (imposeTargetCP t) } with
      | some solution =>
        rw [hv] at h
        cases hlast : a.operations.getLast? with
        | some op =>
          rw [hlast] at h
          cases h
          exact ⟨rfl, rfl⟩
        | none => rw [hlast] at h; cases h
      | none =>
        rw [hv] at h
        exact ih _ r h
    · simp only [hopAux] at h
      rw [if_neg hm] at h
      exact ih acc r h

theorem chainOk_append {rest : List (List Rat × Operation × List Rat)}
    {s : List Rat} (x : List Rat × Operation × List Rat) (t : List Rat)
    (hrest : chainOk rest s) (hx1 : x.1 = s) (hx2 : x.2.2 = t) :
    chainOk (rest ++ [x]) t := by
  induction rest with
  | nil =>
    show chainOk [x] t
    simpa [chainOk] using hx2
  | cons h rest ih =>
    cases rest with
    | nil =>
      have hh : h.2.2 = s := hrest
      show chainOk [h, x] t
      refine ⟨by rw [hh, hx1.symm], ?_⟩
      simpa [chainOk] using hx2
    | cons h2 rest2 =>
      obtain ⟨h12, hrest2⟩ := hrest
      exact ⟨h12, ih hrest2⟩

theorem select_fold_none (env : ScipyEnv) (t : List Rat) :
    ∀ (cov : List CircuitPolytopeData) (wb : Option CircuitPolytopeData × Option Rat),
      (∀ p ∈ cov, env.polyhedron_has_element p t = false) →
      cov.foldl (selectStep env t) wb = wb := by
  intro cov
  induction cov with
  | nil => intro wb _; rfl
  | cons p ps ih =>
    intro wb hall
    rw [List.foldl_cons]
    have hstep : selectStep env t wb p = wb := by
      unfold selectStep
      rw [hall p (List.mem_cons_self _ _)]
      simp
    rw [hstep]
    exact ih wb (fun q hq => hall q (List.mem_cons_of_mem _ hq))

theorem select_fold_spec (env : ScipyEnv) (t : List Rat) :
    ∀ (cov : List CircuitPolytopeData) (w0 : Option CircuitPolytopeData) (b0 : Option Rat),
      (∀ w, w0 = some w → b0 = some w.cost) →
      (∀ w, (cov.foldl (selectStep env t) (w0, b0)).1 = some w →
        (cov.foldl (selectStep env t) (w0, b0)).2 = some w.cost ∧
        ((w ∈ cov ∧ env.polyhedron_has_element w t = true) ∨ w0 = some w)) ∧
      (∀ p ∈ cov, env.polyhedron_has_element p t = true →
        ∃ bc, (cov.foldl (selectStep env t) (w0, b0)).2 = some bc ∧ bc ≤ p.cost) ∧
      (∀ bc0, b0 = some bc0 →
        ∃ bc, (cov.foldl (selectStep env t) (w0, b0)).2 = some bc ∧ bc ≤ bc0) := by
  intro cov
  induction cov with
  | nil =>
    intro w0 b0 h0
    refine ⟨fun w hw => ⟨h0 w hw, Or.inr hw⟩, fun p hp => absurd hp (by simp), ?_⟩
    intro bc0 hb0
    exact ⟨bc0, hb0, le_refl bc0⟩
  | cons p ps ih =>
    intro w0 b0 h0
    rw [List.foldl_cons]
    by_cases hcond : (costLtBest p.cost b0 && env.polyhedron_has_element p t) = true
    · have hstep : selectStep env t (w0, b0) p = (some p, some p.cost) := by
        unfold selectStep
        rw [if_pos hcond]
      rw [hstep]
      obtain ⟨hhaslt, hhas⟩ : costLtBest p.cost b0 = true ∧
          env.polyhedron_has_element p t = true := by simpa using hcond
      obtain ⟨ih1, ih2, ih3⟩ := ih (some p) (some p.cost)
        (fun w hw => by cases hw; rfl)
      refine ⟨?_, ?_, ?_⟩
      · intro w hw
        obtain ⟨hc, hor⟩ := ih1 w hw
        refine ⟨hc, Or.inl ?_⟩
        rcases hor with ⟨hmem, hh⟩ | heq
        · exact ⟨List.mem_cons_of_mem _ hmem, hh⟩
        · cases Option.some.inj heq
          exact ⟨List.mem_cons_self _ _, hhas⟩
      · intro q hq hhq
        rcases List.mem_cons.mp hq with rfl | hq
        · exact ih3 q.cost rfl
        · exact ih2 q hq hhq
      · intro bc0 hb0
        subst hb0
        have hlt : p.cost < bc0 := by
          simpa [costLtBest] using hhaslt
        obtain ⟨bc, hbc, hle⟩ := ih3 p.cost rfl
        exact ⟨bc, hbc, le_trans hle (le_of_lt hlt)⟩
    · have hstep : selectStep env t (w0, b0) p = (w0, b0) := by
        unfold selectStep
        rw [if_neg hcond]
      rw [hstep]
      obtain ⟨ih1, ih2, ih3⟩ := ih w0 b0 h0
      refine ⟨?_, ?_, ?_⟩
      · intro w hw
        obtain ⟨hc, hor⟩ := ih1 w hw
        refine ⟨hc, ?_⟩
        rcases hor with ⟨hmem, hh⟩ | heq
        · exact Or.inl ⟨List.mem_cons_of_mem _ hmem, hh⟩
        · exact Or.inr heq
      · intro q hq hhq
        rcases List.mem_cons.mp hq with rfl | hq
        · have hnotlt : costLtBest q.cost b0 = false := by
            cases hcl : costLtBest q.cost b0 with
            | false => rfl
            | true => exact absurd (by rw [hcl, hhq]; rfl) hcond
          obtain ⟨bc0, hb0, hge⟩ : ∃ bc0, b0 = some bc0 ∧ bc0 ≤ q.cost := by
            cases hb0 : b0 with
            | none =>
              rw [hb0] at hnotlt
              simp [costLtBest] at hnotlt
            | some bc0 =>
              refine ⟨bc0, rfl, ?_⟩
              rw [hb0] at hnotlt
              simpa [costLtBest] using hnotlt
          obtain ⟨bc, hbc, hle⟩ := ih3 bc0 hb0
          exact ⟨bc, hbc, le_trans hle hge⟩
        · exact ih2 q hq hhq
      · exact ih3

theorem loop_chain (env : ScipyEnv) (scov : List CircuitPolytopeData) :
    ∀ (fuel : Nat) (t : List Rat) (ops : List Operation)
      (l : List (List Rat × Operation × List Rat)),
      decomposeLoopAux env scov fuel t ops = .ok l → chainOk l t := by
  intro fuel
  induction fuel with
  | zero =>
    intro t ops l h
    cases ops with
    | nil => cases h; exact trivial
    | cons o os => cases h
  | succ fuel ih =>
    intro t ops l h
    cases ops with
    | nil => cases h; exact trivial
    | cons o os =>
      simp only [decomposeLoopAux] at h
      cases hh : single_unordered_decomposition_hop env t (o :: os) scov with
      | error e => rw [hh] at h; cases h
      | ok r =>
        rw [hh] at h
        replace h : (match decomposeLoopAux env scov fuel r.ancestor
            r.operations_remaining with
          | Except.error e => (Except.error e : Except PathError _)
          | Except.ok rest => Except.ok (rest ++ [r.hop])) = Except.ok l := h
        cases hrec : decomposeLoopAux env scov fuel r.ancestor r.operations_remaining with
        | error e => rw [hrec] at h; cases h
        | ok rest =>
          rw [hrec] at h
          cases h
          obtain ⟨hx2, hx1⟩ := hopAux_ok_shape env t (o :: os) scov [] r hh
          exact chainOk_append r.hop t
            (ih r.ancestor r.operations_remaining rest hrec) hx1 hx2

theorem loop_length (env : ScipyEnv) (scov : List CircuitPolytopeData) :
    ∀ (fuel : Nat) (t : List Rat) (ops : List Operation)
      (l : List (List Rat × Operation × List Rat)),
      fuel = ops.length → decomposeLoopAux env scov fuel t ops = .ok l →
      l.length = ops.length := by
  intro fuel
  induction fuel with
  | zero =>
    intro t ops l hf h
    cases ops with
    | nil => cases h; rfl
    | cons o os => cases h
  | succ fuel ih =>
    intro t ops l hf h
    cases ops with
    | nil => cases h; rfl
    | cons o os =>
      simp only [decomposeLoopAux] at h
      cases hh : single_unordered_decomposition_hop env t (o :: os) scov with
      | error e => rw [hh] at h; cases h
      | ok r =>
        rw [hh] at h
        replace h : (match decomposeLoopAux env scov fuel r.ancestor
            r.operations_remaining with
          | Except.error e => (Except.error e : Except PathError _)
          | Except.ok rest => Except.ok (rest ++ [r.hop])) = Except.ok l := h
        cases hrec : decomposeLoopAux env scov fuel r.ancestor r.operations_remaining with
        | error e => rw [hrec] at h; cases h
        | ok rest =>
          rw [hrec] at h
          cases h
          have hlen := hopAux_ok_length env t (o :: os) scov [] r hh
          have hf2 : fuel = r.operations_remaining.length := by
            simp only [List.length_cons] at hf hlen
            omega
          have hrl := ih r.ancestor r.operations_remaining rest hf2 hrec
          simp only [List.length_append, List.length_cons, List.length_nil]
            at hlen hrl ⊢
          omega

/-- Claim C4: the decomposition search selects, among the coverage-set entries
whose region contains the target, one of minimum cost (the selected entry is
the working polytope); and when no entry's region contains the target it
raises the unreachable-target error instead of returning any decomposition. -/
theorem thm_C4 :
    (∀ (env : ScipyEnv) (cov scov : List CircuitPolytopeData) (t : List Rat),
      (∀ p ∈ cov, env.polyhedron_has_element p t = false) →
      scipy_unordered_decomposition_hops env cov scov t = .error .unreachableTarget) ∧
    (∀ (env : ScipyEnv) (cov scov : List CircuitPolytopeData) (t : List Rat)
      (l : List (List Rat × Operation × List Rat)),
      scipy_unordered_decomposition_hops env cov scov t = .ok l →
      ∃ w, selectWorkingPolytope env cov t = some w ∧ w ∈ cov ∧
        env.polyhedron_has_element w t = true ∧
        ∀ p ∈ cov, env.polyhedron_has_element p t = true → w.cost ≤ p.cost) := by
  constructor
  · intro env cov scov t hall
    unfold scipy_unordered_decomposition_hops selectWorkingPolytope
    rw [select_fold_none env t cov _ hall]
  · intro env cov scov t l h
    unfold scipy_unordered_decomposition_hops at h
    cases hw : selectWorkingPolytope env cov t with
    | none => rw [hw] at h; cases h
    | some w =>
      obtain ⟨sp1, sp2, -⟩ := select_fold_spec env t cov none none (by intro w hw; cases hw)
      have hw' : (cov.foldl (selectStep env t) (none, none)).1 = some w := hw
      obtain ⟨hcost, hor⟩ := sp1 w hw'
      rcases hor with ⟨hmem, hhas⟩ | habs
      · refine ⟨w, rfl, hmem, hhas, ?_⟩
        intro p hp hhp
        obtain ⟨bc, hbc, hle⟩ := sp2 p hp hhp
        rw [hcost] at hbc
        cases Option.some.inj hbc
        exact hle
      · cases habs

/-- Claim C5: every successful decomposition is an ordered chain of
`(source, operation, target)` triples: each triple's target coordinate equals
the next triple's source coordinate, and the last triple's target equals the
requested target point. -/
theorem thm_C5 (env : ScipyEnv) (cov scov : List CircuitPolytopeData)
    (t : List Rat) (l : List (List Rat × Operation × List Rat))
    (h : scipy_unordered_decomposition_hops env cov scov t = .ok l) :
    chainOk l t := by
  unfold scipy_unordered_decomposition_hops at h
  cases hw : selectWorkingPolytope env cov t with
  | none => rw [hw] at h; cases h
  | some w =>
    rw [hw] at h
    exact loop_chain env scov w.operations.length t w.operations l h

/-- Claim C9: a successful hop returns an `operations_remaining` exactly one
element shorter than the working operations (matching ancestors have
multiset-equal operation lists and the last entry is dropped); consequently a
successful decomposition consists of exactly as many triples as the selected
coverage-set entry has operations. -/
theorem thm_C9 :
    (∀ (env : ScipyEnv) (t : List Rat) (w : List Operation)
      (set : List CircuitPolytopeData) (r : HopResult),
      single_unordered_decomposition_hop env t w set = .ok r →
      r.operations_remaining.length + 1 = w.length) ∧
    (∀ (env : ScipyEnv) (cov scov : List CircuitPolytopeData) (t : List Rat)
      (l : List (List Rat × Operation × List Rat)),
      scipy_unordered_decomposition_hops env cov scov t = .ok l →
      ∃ w, selectWorkingPolytope env cov t = some w ∧
        l.length = w.operations.length) := by
  constructor
  · intro env t w set r h
    exact hopAux_ok_length env t w set [] r h
  · intro env cov scov t l h
    unfold scipy_unordered_decomposition_hops at h
    cases hw : selectWorkingPolytope env cov t with
    | none => rw [hw] at h; cases h
    | some w =>
      rw [hw] at h
      exact ⟨w, rfl, loop_length env scov w.operations.length t w.operations l rfl h⟩

/-- The environment of the decomposition witnesses: every region contains
every point and vertex extraction always yields the origin. -/
def env5 : ScipyEnv :=
  { polyhedron_has_element := fun _ _ => true,
    manual_get_random_vertex := fun _ => some [0] }

/-- The environment of the unreachable-target witness: no region contains any
point. -/
def env4 : ScipyEnv :=
  { polyhedron_has_element := fun _ _ => false,
    manual_get_random_vertex := fun _ => none }

/-- Coverage-set entry reached by operations `[7, 8]`. -/
def cpd78 : CircuitPolytopeData :=
  { convex_subpolytopes := [], operations := [7, 8], cost := 1 }

/-- Coverage-set entry reached by operation `[7]`. -/
def cpd7 : CircuitPolytopeData :=
  { convex_subpolytopes := [], operations := [7], cost := 1 }

/-- Witness for C4: at `env4` no entry contains the target and the search
raises the unreachable-target error; at `env5` the search succeeds and the
selected entry is a minimum-cost containing entry. -/
theorem tw_C4 :
    ((∀ p ∈ [cpd78], env4.polyhedron_has_element p [5] = false) ∧
      scipy_unordered_decomposition_hops env4 [cpd78] [cpd78, cpd7] [5] =
        .error .unreachableTarget) ∧
    (scipy_unordered_decomposition_hops env5 [cpd78] [cpd78, cpd7] [5] =
        .ok [([0], 7, [0]), ([0], 8, [5])] ∧
      ∃ w, selectWorkingPolytope env5 [cpd78] [5] = some w ∧ w ∈ [cpd78] ∧
        env5.polyhedron_has_element w [5] = true ∧
        ∀ p ∈ [cpd78], env5.polyhedron_has_element p [5] = true → w.cost ≤ p.cost) :=
  ⟨⟨by decide, thm_C4.1 env4 [cpd78] [cpd78, cpd7] [5] (by decide)⟩,
   ⟨rfl, thm_C4.2 env5 [cpd78] [cpd78, cpd7] [5] [([0], 7, [0]), ([0], 8, [5])] rfl⟩⟩

/-- Witness for C5: the concrete two-hop decomposition chains from the origin
point to the requested target. -/
theorem tw_C5 :
    scipy_unordered_decomposition_hops env5 [cpd78] [cpd78, cpd7] [5] =
      .ok [([0], 7, [0]), ([0], 8, [5])] ∧
    chainOk [([0], 7, [0]), ([0], 8, [5])] [5] :=
  ⟨rfl, thm_C5 env5 [cpd78] [cpd78, cpd7] [5] [([0], 7, [0]), ([0], 8, [5])] rfl⟩

/-- Witness for C9: the concrete hop drops exactly one operation, and the
concrete decomposition has exactly as many triples as the selected entry has
operations. -/
theorem tw_C9 :
    (single_unordered_decomposition_hop env5 [5] [7] [cpd78, cpd7] =
        .ok { hop := ([0], 7, [5]), ancestor := [0], operations_remaining := [] } ∧
      (0 : Nat) + 1 = 1) ∧
    (scipy_unordered_decomposition_hops env5 [cpd78] [cpd78, cpd7] [5] =
        .ok [([0], 7, [0]), ([0], 8, [5])] ∧
      ∃ w, selectWorkingPolytope env5 [cpd78] [5] = some w ∧
        ([([0], 7, [0]), ([0], 8, [5])] :
          List (List Rat × Operation × List Rat)).length = w.operations.length) :=
  ⟨⟨rfl, thm_C9.1 env5 [5] [7] [cpd78, cpd7]
      { hop := ([0], 7, [5]), ancestor := [0], operations_remaining := [] } rfl⟩,
   ⟨rfl, thm_C9.2 env5 [cpd78] [cpd78, cpd7] [5] [([0], 7, [0]), ([0], 8, [5])] rfl⟩⟩
